import Mathlib

/-!
Verification development for the Quanta PDF layout-analysis repository.

The machine-learning integration layer (`finetuning/scripts/integrate_model.py`)
and the visual annotation extractor
(`finetuning/utils/visual_annotation_extractor.py`) are embedded directly from
the Python source.  The core per-page pipeline modules (`src.columns`,
`src.text_blocks`, `src.figures`, `src.tables`, `src.captions`, `src.order`)
are imported by the scripts in the repository but their sources are not part of
the checkout; the definitions for those stages below are modelled from the
specification and are marked as such in their doc comments.

Machine floats are modelled as rationals, Python lists as Lean lists, and the
single mutable `page_data` dict threaded through `enhance_detections` is
modelled by recording both the returned value and the post-call content of the
caller's variable.
-/

namespace Quanta

/-- A pixel-space bounding box `[x0, y0, x1, y1]`, origin top-left, as the
`bbox_px` lists used throughout the repository. -/
structure Rect where
  x0 : Int
  y0 : Int
  x1 : Int
  y1 : Int
  deriving DecidableEq, Repr

/-- A figure candidate as constructed by `integrate_model.py`
(`Figure(bbox_px=..., source=...)`). -/
structure Figure where
  bbox_px : Rect
  source : String
  deriving DecidableEq, Repr

/-- A table candidate as constructed by `integrate_model.py`
(`Table(bbox_px=..., cells=..., detection_method=...)`).  Cells are a grid of
cell rectangles; the integration layer only ever passes the empty grid. -/
structure Table where
  bbox_px : Rect
  cells : List (List Rect)
  detection_method : String
  deriving DecidableEq, Repr

/-- A detection handed to `EnhancedDetector.predict_detection_type`: either a
`Figure` or a `Table` (the `isinstance` dispatch in the Python source). -/
inductive Detection where
  | fig (f : Figure)
  | tab (t : Table)
  deriving DecidableEq, Repr

/-- The figure/table part of a per-page result dict (`page_data['figures']`,
`page_data['tables']`). -/
structure PageData where
  figures : List Figure
  tables : List Table
  deriving DecidableEq, Repr

/-- `EnhancedDetector._convert_figure_to_table` (integrate_model.py lines
155-161): same bbox, empty cell grid, method tag `enhanced_from_figure`. -/
def convert_figure_to_table (f : Figure) : Table :=
  { bbox_px := f.bbox_px, cells := [], detection_method := "enhanced_from_figure" }

/-- `EnhancedDetector._convert_table_to_figure` (integrate_model.py lines
163-168): same bbox, source tag `enhanced_from_table`. -/
def convert_table_to_figure (t : Table) : Figure :=
  { bbox_px := t.bbox_px, source := "enhanced_from_table" }

/-- `EnhancedDetector.predict_detection_type` when `self.is_loaded` is false
(integrate_model.py lines 79-86): a `Figure` yields `('figure', 0.5)` and a
`Table` yields `('table', 0.5)`. -/
def predict_unloaded : Detection → String × ℚ
  | .fig _ => ("figure", 1/2)
  | .tab _ => ("table", 1/2)

/-- The figure loop of `EnhancedDetector.enhance_detections` (integrate_model.py
lines 121-133): keep the figure when the model predicts `figure` above 0.6,
convert it to a table when the model predicts `table` above 0.6, and keep the
original classification otherwise.  Returns the figures appended to
`enhanced_figures` and the converted tables appended to `enhanced_tables`, in
loop order. -/
def enhanceFigs (predict : Detection → String × ℚ) : List Figure → List Figure × List Table
  | [] => ([], [])
  | f :: rest =>
    let pr := predict (Detection.fig f)
    let res := enhanceFigs predict rest
    if pr.1 = "figure" ∧ pr.2 > 6/10 then (f :: res.1, res.2)
    else if pr.1 = "table" ∧ pr.2 > 6/10 then (res.1, convert_figure_to_table f :: res.2)
    else (f :: res.1, res.2)

/-- The table loop of `EnhancedDetector.enhance_detections` (integrate_model.py
lines 135-147), symmetric to the figure loop. -/
def enhanceTabs (predict : Detection → String × ℚ) : List Table → List Figure × List Table
  | [] => ([], [])
  | t :: rest =>
    let pr := predict (Detection.tab t)
    let res := enhanceTabs predict rest
    if pr.1 = "table" ∧ pr.2 > 6/10 then (res.1, t :: res.2)
    else if pr.1 = "figure" ∧ pr.2 > 6/10 then (convert_table_to_figure t :: res.1, res.2)
    else (res.1, t :: res.2)

/-- Observable outcome of calling `enhance_detections(page_data)`: the value
returned by the call and the content of the caller's `page_data` variable after
the call. -/
structure EnhanceOutcome where
  ret : PageData
  caller : PageData
  deriving DecidableEq, Repr

/-- `EnhancedDetector.enhance_detections` (integrate_model.py lines 116-153).
The new figure list is the kept figures followed by the figures converted from
tables; the new table list is the tables converted from figures followed by the
kept tables (the two loops append in that order).  Lines 150-151 assign
`page_data['figures']` and `page_data['tables']` on the caller's dict before
line 153 returns that same dict, so the post-call content of the caller's
variable and the returned value are both the updated page data. -/
def enhance_detections (predict : Detection → String × ℚ) (page_data : PageData) :
    EnhanceOutcome :=
  let rf := enhanceFigs predict page_data.figures
  let rt := enhanceTabs predict page_data.tables
  let updated : PageData := { figures := rf.1 ++ rt.1, tables := rf.2 ++ rt.2 }
  { ret := updated, caller := updated }

lemma enhanceFigs_unloaded (l : List Figure) : enhanceFigs predict_unloaded l = (l, []) := by
  induction l with
  | nil => rfl
  | cons f rest ih =>
    simp only [enhanceFigs, predict_unloaded, ih]
    norm_num

lemma enhanceTabs_unloaded (l : List Table) : enhanceTabs predict_unloaded l = ([], l) := by
  induction l with
  | nil => rfl
  | cons t rest ih =>
    simp only [enhanceTabs, predict_unloaded, ih]
    norm_num

/-- C2: when no trained classifier model is loaded, the enhanced detection step
returns figure and table lists equal to the original detection's figure and
table lists — every detection keeps its original classification. -/
theorem C2_enhance_without_model_is_identity (pd : PageData) :
    (enhance_detections predict_unloaded pd).ret.figures = pd.figures ∧
    (enhance_detections predict_unloaded pd).ret.tables = pd.tables := by
  simp [enhance_detections, enhanceFigs_unloaded, enhanceTabs_unloaded]

/-- A loaded classifier that predicts `table` with confidence 0.7 for every
detection handed to it. -/
def predictAlwaysTable : Detection → String × ℚ := fun _ => ("table", 7/10)

/-- A page result holding a single vector-cluster figure and no tables. -/
def pd0 : PageData :=
  { figures := [{ bbox_px := ⟨0, 0, 10, 10⟩, source := "vector-cluster" }], tables := [] }

/-- C1 counterexample: with a loaded classifier that reclassifies the single
figure of `pd0` as a table with confidence 0.7, the caller's `page_data` after
the call differs from the original page result — `enhance_detections` rebinds
the caller's figure/table entries in place (integrate_model.py lines 150-153),
so it is not a pure transform that leaves the caller's collections unchanged. -/
theorem C1_counterexample :
    (enhance_detections predictAlwaysTable pd0).caller ≠ pd0 := by
  intro h
  have hfig := congrArg PageData.figures h
  norm_num [enhance_detections, enhanceFigs, enhanceTabs, predictAlwaysTable, pd0] at hfig
  rw [if_neg (by decide)] at hfig
  simp at hfig

lemma enhanceFigs_fst_mem (predict : Detection → String × ℚ) (l : List Figure) :
    ∀ f ∈ (enhanceFigs predict l).1, f ∈ l := by
  induction l with
  | nil => simp [enhanceFigs]
  | cons g rest ih =>
    intro f hf
    simp only [enhanceFigs] at hf
    split at hf
    · rcases List.mem_cons.1 hf with h | h
      · exact List.mem_cons.2 (Or.inl h)
      · exact List.mem_cons.2 (Or.inr (ih f h))
    · split at hf
      · exact List.mem_cons.2 (Or.inr (ih f hf))
      · rcases List.mem_cons.1 hf with h | h
        · exact List.mem_cons.2 (Or.inl h)
        · exact List.mem_cons.2 (Or.inr (ih f h))

lemma enhanceFigs_snd_mem (predict : Detection → String × ℚ) (l : List Figure) :
    ∀ t ∈ (enhanceFigs predict l).2, ∃ f ∈ l, t = convert_figure_to_table f := by
  induction l with
  | nil => simp [enhanceFigs]
  | cons g rest ih =>
    intro t ht
    simp only [enhanceFigs] at ht
    split at ht
    · obtain ⟨f, hf, he⟩ := ih t ht
      exact ⟨f, List.mem_cons.2 (Or.inr hf), he⟩
    · split at ht
      · rcases List.mem_cons.1 ht with h | h
        · exact ⟨g, List.mem_cons.2 (Or.inl rfl), h⟩
        · obtain ⟨f, hf, he⟩ := ih t h
          exact ⟨f, List.mem_cons.2 (Or.inr hf), he⟩
      · obtain ⟨f, hf, he⟩ := ih t ht
        exact ⟨f, List.mem_cons.2 (Or.inr hf), he⟩

lemma enhanceTabs_snd_mem (predict : Detection → String × ℚ) (l : List Table) :
    ∀ t ∈ (enhanceTabs predict l).2, t ∈ l := by
  induction l with
  | nil => simp [enhanceTabs]
  | cons s rest ih =>
    intro t ht
    simp only [enhanceTabs] at ht
    split at ht
    · rcases List.mem_cons.1 ht with h | h
      · exact List.mem_cons.2 (Or.inl h)
      · exact List.mem_cons.2 (Or.inr (ih t h))
    · split at ht
      · exact List.mem_cons.2 (Or.inr (ih t ht))
      · rcases List.mem_cons.1 ht with h | h
        · exact List.mem_cons.2 (Or.inl h)
        · exact List.mem_cons.2 (Or.inr (ih t h))

lemma enhanceTabs_fst_mem (predict : Detection → String × ℚ) (l : List Table) :
    ∀ f ∈ (enhanceTabs predict l).1, ∃ t ∈ l, f = convert_table_to_figure t := by
  induction l with
  | nil => simp [enhanceTabs]
  | cons s rest ih =>
    intro f hf
    simp only [enhanceTabs] at hf
    split at hf
    · obtain ⟨t, ht, he⟩ := ih f hf
      exact ⟨t, List.mem_cons.2 (Or.inr ht), he⟩
    · split at hf
      · rcases List.mem_cons.1 hf with h | h
        · exact ⟨s, List.mem_cons.2 (Or.inl rfl), h⟩
        · obtain ⟨t, ht, he⟩ := ih f h
          exact ⟨t, List.mem_cons.2 (Or.inr ht), he⟩
      · obtain ⟨t, ht, he⟩ := ih f hf
        exact ⟨t, List.mem_cons.2 (Or.inr ht), he⟩

/-- C1 (amended): the hook never mutates individual Figure or Table objects or
the original input lists themselves — every figure in the output is an original
input figure kept unchanged or a freshly constructed conversion of an input
table, and symmetrically for tables — but it is not a pure transform of the
page result: it updates the caller's `page_data` mapping in place and returns
that same updated mapping, so the returned value and the caller's post-call
page data coincide. -/
theorem C1_hook_builds_new_values_but_updates_caller
    (predict : Detection → String × ℚ) (pd : PageData) :
    (enhance_detections predict pd).ret = (enhance_detections predict pd).caller ∧
    (∀ f ∈ (enhance_detections predict pd).caller.figures,
      f ∈ pd.figures ∨ ∃ t ∈ pd.tables, f = convert_table_to_figure t) ∧
    (∀ t ∈ (enhance_detections predict pd).caller.tables,
      t ∈ pd.tables ∨ ∃ f ∈ pd.figures, t = convert_figure_to_table f) := by
  refine ⟨rfl, ?_, ?_⟩
  · intro f hf
    simp only [enhance_detections, List.mem_append] at hf
    rcases hf with h | h
    · exact Or.inl (enhanceFigs_fst_mem predict pd.figures f h)
    · exact Or.inr (enhanceTabs_fst_mem predict pd.tables f h)
  · intro t ht
    simp only [enhance_detections, List.mem_append] at ht
    rcases ht with h | h
    · exact Or.inr (enhanceFigs_snd_mem predict pd.figures t h)
    · exact Or.inl (enhanceTabs_snd_mem predict pd.tables t h)

/-- Witness for the amended C1 at the concrete reclassifying model and page. -/
theorem C1_hook_builds_new_values_but_updates_caller_witness :
    (enhance_detections predictAlwaysTable pd0).ret =
      (enhance_detections predictAlwaysTable pd0).caller ∧
    (∀ f ∈ (enhance_detections predictAlwaysTable pd0).caller.figures,
      f ∈ pd0.figures ∨ ∃ t ∈ pd0.tables, f = convert_table_to_figure t) ∧
    (∀ t ∈ (enhance_detections predictAlwaysTable pd0).caller.tables,
      t ∈ pd0.tables ∨ ∃ f ∈ pd0.figures, t = convert_figure_to_table f) :=
  C1_hook_builds_new_values_but_updates_caller predictAlwaysTable pd0

lemma enhanceFigs_length (predict : Detection → String × ℚ) (l : List Figure) :
    (enhanceFigs predict l).1.length + (enhanceFigs predict l).2.length = l.length := by
  induction l with
  | nil => rfl
  | cons f rest ih =>
    simp only [enhanceFigs]
    split
    · simpa using by omega
    · split
      · simpa using by omega
      · simpa using by omega

lemma enhanceTabs_length (predict : Detection → String × ℚ) (l : List Table) :
    (enhanceTabs predict l).1.length + (enhanceTabs predict l).2.length = l.length := by
  induction l with
  | nil => rfl
  | cons t rest ih =>
    simp only [enhanceTabs]
    split
    · simpa using by omega
    · split
      · simpa using by omega
      · simpa using by omega

lemma enhanceFigs_keep_low_conf (predict : Detection → String × ℚ) (l : List Figure) :
    ∀ f ∈ l, (predict (Detection.fig f)).2 ≤ 6/10 → f ∈ (enhanceFigs predict l).1 := by
  induction l with
  | nil => simp
  | cons g rest ih =>
    intro f hf hc
    rcases List.mem_cons.1 hf with h | h
    · subst h
      simp only [enhanceFigs]
      split
      · exact List.mem_cons.2 (Or.inl rfl)
      · split
        · rename_i h2
          exact absurd h2.2 (not_lt.2 hc)
        · exact List.mem_cons.2 (Or.inl rfl)
    · have := ih f h hc
      simp only [enhanceFigs]
      split
      · exact List.mem_cons.2 (Or.inr this)
      · split
        · exact this
        · exact List.mem_cons.2 (Or.inr this)

lemma enhanceTabs_keep_low_conf (predict : Detection → String × ℚ) (l : List Table) :
    ∀ t ∈ l, (predict (Detection.tab t)).2 ≤ 6/10 → t ∈ (enhanceTabs predict l).2 := by
  induction l with
  | nil => simp
  | cons s rest ih =>
    intro t ht hc
    rcases List.mem_cons.1 ht with h | h
    · subst h
      simp only [enhanceTabs]
      split
      · exact List.mem_cons.2 (Or.inl rfl)
      · split
        · rename_i h2
          exact absurd h2.2 (not_lt.2 hc)
        · exact List.mem_cons.2 (Or.inl rfl)
    · have := ih t h hc
      simp only [enhanceTabs]
      split
      · exact List.mem_cons.2 (Or.inr this)
      · split
        · exact this
        · exact List.mem_cons.2 (Or.inr this)

/-- C4: the enhancement step conserves detections: the total count of figures
plus tables is unchanged; every output bounding box equals some input bounding
box; every output table is an input table or a conversion carrying the empty
cell grid; and any prediction with confidence not exceeding 0.6 keeps the
original classification. -/
theorem C4_enhance_conserves_detections
    (predict : Detection → String × ℚ) (pd : PageData) :
    ((enhance_detections predict pd).ret.figures.length +
        (enhance_detections predict pd).ret.tables.length =
      pd.figures.length + pd.tables.length) ∧
    (∀ f ∈ (enhance_detections predict pd).ret.figures,
      f.bbox_px ∈ pd.figures.map Figure.bbox_px ∨
        f.bbox_px ∈ pd.tables.map Table.bbox_px) ∧
    (∀ t ∈ (enhance_detections predict pd).ret.tables,
      t.bbox_px ∈ pd.figures.map Figure.bbox_px ∨
        t.bbox_px ∈ pd.tables.map Table.bbox_px) ∧
    (∀ t ∈ (enhance_detections predict pd).ret.tables, t ∈ pd.tables ∨ t.cells = []) ∧
    (∀ f ∈ pd.figures, (predict (Detection.fig f)).2 ≤ 6/10 →
      f ∈ (enhance_detections predict pd).ret.figures) ∧
    (∀ t ∈ pd.tables, (predict (Detection.tab t)).2 ≤ 6/10 →
      t ∈ (enhance_detections predict pd).ret.tables) := by
  refine ⟨?_, ?_, ?_, ?_, ?_, ?_⟩
  · have hf := enhanceFigs_length predict pd.figures
    have ht := enhanceTabs_length predict pd.tables
    simp only [enhance_detections, List.length_append]
    omega
  · intro f hf
    simp only [enhance_detections, List.mem_append] at hf
    rcases hf with h | h
    · exact Or.inl (List.mem_map.2 ⟨f, enhanceFigs_fst_mem predict pd.figures f h, rfl⟩)
    · obtain ⟨t, ht, he⟩ := enhanceTabs_fst_mem predict pd.tables f h
      exact Or.inr (List.mem_map.2 ⟨t, ht, by simp [he, convert_table_to_figure]⟩)
  · intro t ht
    simp only [enhance_detections, List.mem_append] at ht
    rcases ht with h | h
    · obtain ⟨f, hf, he⟩ := enhanceFigs_snd_mem predict pd.figures t h
      exact Or.inl (List.mem_map.2 ⟨f, hf, by simp [he, convert_figure_to_table]⟩)
    · exact Or.inr (List.mem_map.2 ⟨t, enhanceTabs_snd_mem predict pd.tables t h, rfl⟩)
  · intro t ht
    simp only [enhance_detections, List.mem_append] at ht
    rcases ht with h | h
    · obtain ⟨f, _, he⟩ := enhanceFigs_snd_mem predict pd.figures t h
      exact Or.inr (by simp [he, convert_figure_to_table])
    · exact Or.inl (enhanceTabs_snd_mem predict pd.tables t h)
  · intro f hf hc
    simp only [enhance_detections, List.mem_append]
    exact Or.inl (enhanceFigs_keep_low_conf predict pd.figures f hf hc)
  · intro t ht hc
    simp only [enhance_detections, List.mem_append]
    exact Or.inr (enhanceTabs_keep_low_conf predict pd.tables t ht hc)

/-- A page result with one figure and one table, for the C4 witness. -/
def pd1 : PageData :=
  { figures := [{ bbox_px := ⟨0, 0, 10, 10⟩, source := "vector-cluster" }],
    tables := [{ bbox_px := ⟨20, 20, 60, 40⟩, cells := [], detection_method := "ruled" }] }

/-- Witness for C4 at a concrete predictor and page. -/
theorem C4_enhance_conserves_detections_witness :
    ((enhance_detections predict_unloaded pd1).ret.figures.length +
        (enhance_detections predict_unloaded pd1).ret.tables.length =
      pd1.figures.length + pd1.tables.length) ∧
    (∀ f ∈ (enhance_detections predict_unloaded pd1).ret.figures,
      f.bbox_px ∈ pd1.figures.map Figure.bbox_px ∨
        f.bbox_px ∈ pd1.tables.map Table.bbox_px) ∧
    (∀ t ∈ (enhance_detections predict_unloaded pd1).ret.tables,
      t.bbox_px ∈ pd1.figures.map Figure.bbox_px ∨
        t.bbox_px ∈ pd1.tables.map Table.bbox_px) ∧
    (∀ t ∈ (enhance_detections predict_unloaded pd1).ret.tables,
      t ∈ pd1.tables ∨ t.cells = []) ∧
    (∀ f ∈ pd1.figures, (predict_unloaded (Detection.fig f)).2 ≤ 6/10 →
      f ∈ (enhance_detections predict_unloaded pd1).ret.figures) ∧
    (∀ t ∈ pd1.tables, (predict_unloaded (Detection.tab t)).2 ≤ 6/10 →
      t ∈ (enhance_detections predict_unloaded pd1).ret.tables) :=
  C4_enhance_conserves_detections predict_unloaded pd1

/-- A contour found by OpenCV in a colour mask: its `cv2.contourArea` (always
nonnegative) and its `cv2.boundingRect` fields `x, y, w, h`.  The colour of the
mask it came from is carried along (the Python loop iterates the colour
ranges). -/
structure Contour where
  area : ℚ
  x : Int
  y : Int
  w : Int
  h : Int
  color : String
  deriving DecidableEq, Repr

/-- An extracted visual-annotation record as built by
`VisualAnnotationExtractor._detect_colored_boxes`. -/
structure ColorBox where
  page_num : ℕ
  bbox_px : Rect
  label : String
  color : String
  boxArea : Int
  width : Int
  height : Int
  confidence : ℚ
  deriving DecidableEq, Repr

/-- Python `int(...)` truncation toward zero on a rational. -/
def pytrunc (q : ℚ) : Int := if 0 ≤ q then ⌊q⌋ else -⌊-q⌋

/-- `scale_factor = 150 / (2 * 72)` (visual_annotation_extractor.py line 92). -/
def scale_factor : ℚ := 150 / (2 * 72)

/-- `self.label_mapping` of `VisualAnnotationExtractor`: red boxes are tables,
green boxes figures, blue boxes text. -/
def label_mapping (c : String) : String :=
  if c = "red" then "table" else if c = "green" then "figure" else
    if c = "blue" then "text" else ""

/-- `VisualAnnotationExtractor._detect_colored_boxes` (lines 68-115), with the
OpenCV mask/contour extraction treated as the external input: contours with
area below 1000 are skipped, the bounding rectangle is rescaled from the 2x
render to 150 DPI coordinates, and the confidence is
`min(1.0, area / 10000)`. -/
def detect_colored_boxes (contours : List Contour) (page_num : ℕ) : List ColorBox :=
  contours.filterMap (fun c =>
    if c.area < 1000 then none
    else
      let x0 := pytrunc ((c.x : ℚ) / scale_factor)
      let y0 := pytrunc ((c.y : ℚ) / scale_factor)
      let x1 := pytrunc (((c.x + c.w : Int) : ℚ) / scale_factor)
      let y1 := pytrunc (((c.y + c.h : Int) : ℚ) / scale_factor)
      some { page_num := page_num
             bbox_px := ⟨x0, y0, x1, y1⟩
             label := label_mapping c.color
             color := c.color
             boxArea := (x1 - x0) * (y1 - y0)
             width := x1 - x0
             height := y1 - y0
             confidence := min 1 (c.area / 10000) })

/-- C3: every annotation produced by the area-based detector carries a
confidence in the closed interval `[0, 1]` — the `min(1.0, area / 10000)`
formula never leaves the unit interval for any region passing the detector
(its area guard admits only areas of at least 1000) — and the
re-classification hook's fallback scores also lie in `[0, 1]`. -/
theorem C3_confidence_in_unit_interval (contours : List Contour) (pn : ℕ) :
    (∀ a ∈ detect_colored_boxes contours pn, 0 ≤ a.confidence ∧ a.confidence ≤ 1) ∧
    (∀ d, 0 ≤ (predict_unloaded d).2 ∧ (predict_unloaded d).2 ≤ 1) := by
  constructor
  · intro a ha
    simp only [detect_colored_boxes, List.mem_filterMap] at ha
    obtain ⟨c, _, hc⟩ := ha
    split at hc
    · exact absurd hc (by simp)
    · rename_i hge
      push_neg at hge
      have hconf : a.confidence = min 1 (c.area / 10000) := by
        cases hc
        rfl
      constructor
      · rw [hconf]
        have h0 : (0 : ℚ) ≤ c.area / 10000 := by positivity
        exact le_min (by norm_num) h0
      · rw [hconf]
        exact min_le_left _ _
  · intro d
    cases d <;> simp [predict_unloaded] <;> norm_num

/-- A concrete contour list: one large green contour and one tiny one. -/
def contours0 : List Contour :=
  [{ area := 20000, x := 10, y := 10, w := 100, h := 80, color := "green" },
   { area := 50, x := 0, y := 0, w := 5, h := 5, color := "red" }]

/-- Witness for C3 at a concrete contour list. -/
theorem C3_confidence_in_unit_interval_witness :
    (∀ a ∈ detect_colored_boxes contours0 0, 0 ≤ a.confidence ∧ a.confidence ≤ 1) ∧
    (∀ d, 0 ≤ (predict_unloaded d).2 ∧ (predict_unloaded d).2 ≤ 1) :=
  C3_confidence_in_unit_interval contours0 0

/-- A paragraph-level text block of the core pipeline: bounding box, text and
horizontal centre, as read by the repository's debug and test scripts
(`block.bbox_px`, `block.text`, `block.center_x`). -/
structure TextBlockC where
  bbox_px : Rect
  text : String
  center_x : ℚ
  deriving DecidableEq, Repr

/-- Modelled from the spec: `filter_blocks_in_columns` of `src.text_blocks`
(called from debug_columns.py line 29; the module source is not in the
checkout).  Per spec sections 4.2 and 8, a block is kept exactly when its
`center_x` lies within some Column's half-open band `[x0, x1)`; a block whose
centre falls outside every band is dropped from the output list. -/
def filter_blocks_in_columns (blocks : List TextBlockC) (cols : List (ℚ × ℚ)) :
    List TextBlockC :=
  blocks.filter (fun b =>
    cols.any (fun c => decide (c.1 ≤ b.center_x) && decide (b.center_x < c.2)))

/-- C9: every text block present in the post-filter output has its `center_x`
inside some column's `[x0, x1)` band, and any block whose centre falls outside
every band is entirely absent from the output list. -/
theorem C9_filtered_blocks_lie_in_columns (blocks : List TextBlockC)
    (cols : List (ℚ × ℚ)) :
    (∀ b ∈ filter_blocks_in_columns blocks cols,
      ∃ c ∈ cols, c.1 ≤ b.center_x ∧ b.center_x < c.2) ∧
    (∀ b ∈ blocks, (∀ c ∈ cols, ¬(c.1 ≤ b.center_x ∧ b.center_x < c.2)) →
      b ∉ filter_blocks_in_columns blocks cols) := by
  constructor
  · intro b hb
    have hp := (List.mem_filter.1 hb).2
    rcases List.any_eq_true.1 hp with ⟨c, hc, hcb⟩
    simp only [Bool.and_eq_true, decide_eq_true_eq] at hcb
    exact ⟨c, hc, hcb.1, hcb.2⟩
  · intro b _ hout hmem
    have hp := (List.mem_filter.1 hmem).2
    rcases List.any_eq_true.1 hp with ⟨c, hc, hcb⟩
    simp only [Bool.and_eq_true, decide_eq_true_eq] at hcb
    exact hout c hc ⟨hcb.1, hcb.2⟩

/-- Two concrete text blocks: one centred inside the single column band, one
outside every band. -/
def blocks0 : List TextBlockC :=
  [{ bbox_px := ⟨10, 10, 90, 30⟩, text := "inside", center_x := 50 },
   { bbox_px := ⟨400, 10, 440, 30⟩, text := "margin", center_x := 420 }]

/-- Witness for C9 at a concrete block list and column list. -/
theorem C9_filtered_blocks_lie_in_columns_witness :
    (∀ b ∈ filter_blocks_in_columns blocks0 [((0 : ℚ), (100 : ℚ))],
      ∃ c ∈ [((0 : ℚ), (100 : ℚ))], c.1 ≤ b.center_x ∧ b.center_x < c.2) ∧
    (∀ b ∈ blocks0,
      (∀ c ∈ [((0 : ℚ), (100 : ℚ))], ¬(c.1 ≤ b.center_x ∧ b.center_x < c.2)) →
      b ∉ filter_blocks_in_columns blocks0 [((0 : ℚ), (100 : ℚ))]) :=
  C9_filtered_blocks_lie_in_columns blocks0 [((0 : ℚ), (100 : ℚ))]

/-- Signed area of a rectangle in square pixels. -/
def rectArea (r : Rect) : Int := (r.x1 - r.x0) * (r.y1 - r.y0)

/-- Area of the intersection of two rectangles (zero when they do not meet). -/
def interArea (a b : Rect) : Int :=
  max 0 (min a.x1 b.x1 - max a.x0 b.x0) * max 0 (min a.y1 b.y1 - max a.y0 b.y0)

/-- Smallest rectangle containing both arguments. -/
def rectUnion (a b : Rect) : Rect :=
  ⟨min a.x0 b.x0, min a.y0 b.y0, max a.x1 b.x1, max a.y1 b.y1⟩

/-- Intersection-over-union of two bounding boxes (glossary: IoU).  The empty
union is mapped to ratio 0 by rational division. -/
def iouQ (a b : Rect) : ℚ :=
  let i : ℚ := (interArea a b : Int)
  let u : ℚ := ((rectArea a : Int) : ℚ) + ((rectArea b : Int) : ℚ) - i
  i / u

/-- A rectangle expanded by a margin on every side. -/
def expandRect (m : Int) (r : Rect) : Rect := ⟨r.x0 - m, r.y0 - m, r.x1 + m, r.y1 + m⟩

/-- Whether two rectangles intersect (open overlap on both axes). -/
def rectsMeetB (a b : Rect) : Bool :=
  decide (max a.x0 b.x0 < min a.x1 b.x1) && decide (max a.y0 b.y0 < min a.y1 b.y1)

/-- Kind of a vector drawing primitive (spec section 6: line, curve or fill). -/
inductive PrimKind where
  | lineK
  | curveK
  | fillK
  deriving DecidableEq, Repr

/-- A vector drawing primitive: kind and bounding box. -/
structure VectorPrim where
  kind : PrimKind
  bbox : Rect
  deriving DecidableEq, Repr

/-- A figure candidate of the core detector, per the spec data model:
bounding box, provenance tag and confidence. -/
structure FigCand where
  bbox_px : Rect
  source : String
  confidence : ℚ
  deriving DecidableEq, Repr

/-- Adjacency margin for vector clustering (spec section 4.3: bounding boxes
expanded by a small margin). -/
def clusterMargin : Int := 5

/-- Minimum cluster-bbox area for a vector figure candidate (spec section 4.3:
area exceeds a minimum). -/
def minFigArea : Int := 2500

/-- Maximum fraction of a candidate's area that may be covered by any single
text block (spec section 4.3: overlap with any TextBlock below a maximum
overlap fraction). -/
def maxTextOverlapFrac : ℚ := 3/10

/-- Merge threshold on IoU for unioning overlapping figure candidates
(spec sections 3 and 4.3). -/
def figMergeIoU : ℚ := 6/10

/-- Modelled from the spec: one step of the union-find style spatial
clustering of `src.figures` (spec section 4.3; the module source is not in the
checkout).  A primitive joins, and thereby merges, every existing cluster
containing a primitive whose margin-expanded bbox intersects its own. -/
def addToClusters (cs : List (List VectorPrim)) (p : VectorPrim) :
    List (List VectorPrim) :=
  let touches := fun (c : List VectorPrim) =>
    c.any (fun q => rectsMeetB (expandRect clusterMargin p.bbox) (expandRect clusterMargin q.bbox))
  (p :: (cs.filter touches).flatten) :: cs.filter (fun c => !touches c)

/-- Modelled from the spec: spatial clusters of the vector primitives. -/
def clustersOf (prims : List VectorPrim) : List (List VectorPrim) :=
  prims.foldl addToClusters []

/-- Bounding box of a cluster (union of the members' boxes). -/
def clusterBBox : List VectorPrim → Rect
  | [] => ⟨0, 0, 0, 0⟩
  | p :: ps => ps.foldl (fun r q => rectUnion r q.bbox) p.bbox

/-- Modelled from the spec: merging of overlapping figure candidates
(spec section 4.3: candidates with IoU above the merge threshold are unioned
into one box).  Each candidate is folded into the first accumulated candidate
it overlaps, keeping the higher confidence. -/
def insertMergedFig (c : FigCand) : List FigCand → List FigCand
  | [] => [c]
  | d :: rest =>
    if iouQ c.bbox_px d.bbox_px > figMergeIoU then
      { bbox_px := rectUnion c.bbox_px d.bbox_px, source := d.source,
        confidence := max c.confidence d.confidence } :: rest
    else d :: insertMergedFig c rest

/-- Modelled from the spec: `detect_figures` of `src.figures` (spec section
4.3; the module source is not in the checkout).  Vector primitives are grouped
by spatial adjacency; each cluster whose bbox has enough area and does not
mostly coincide with any text block becomes a `vector-cluster` candidate with
confidence growing in the cluster size; embedded image placements become
`embedded-image` candidates with fixed high confidence; overlapping candidates
are unioned.  The function is total: an empty result is a valid outcome, never
an error. -/
def detect_figures (prims : List VectorPrim) (images : List Rect)
    (tbs : List TextBlockC) : List FigCand :=
  let vec := (clustersOf prims).filterMap (fun c =>
    let bb := clusterBBox c
    if decide (minFigArea ≤ rectArea bb) &&
        tbs.all (fun tb =>
          decide (((interArea bb tb.bbox_px : Int) : ℚ) <
            maxTextOverlapFrac * ((rectArea bb : Int) : ℚ))) then
      some { bbox_px := bb, source := "vector-cluster",
             confidence := min 1 ((c.length : ℚ) / 10) }
    else none)
  let img := images.map (fun r =>
    { bbox_px := r, source := "embedded-image", confidence := 9/10 })
  (vec ++ img).foldl (fun acc c => insertMergedFig c acc) []

/-- C10: on a page with zero vector primitives and zero embedded images the
figure detector returns the empty figure list; the detector is a total
function, so the empty result is a valid outcome and no error is raised. -/
theorem C10_no_primitives_no_figures (tbs : List TextBlockC) :
    detect_figures [] [] tbs = [] := rfl

/-- A deduplication candidate: bounding box and confidence score (spec
section 4.4; both figure/table detectors feed such candidates to the final
merge pass). -/
structure DetCand where
  bbox : Rect
  confidence : ℚ
  deriving DecidableEq, Repr

/-- Merge threshold on IoU for the deduplication pass (spec section 3:
overlap ratio above 0.6 IoU). -/
def dedupIoU : ℚ := 6/10

/-- `d` eliminates a later candidate `c`: they overlap above the merge
threshold and `d`'s confidence is at least `c`'s (on equal confidence the
earlier candidate is the one kept). -/
def beatsEarlier (d c : DetCand) : Bool :=
  decide (iouQ d.bbox c.bbox > dedupIoU) && decide (c.confidence ≤ d.confidence)

/-- `d` eliminates an earlier candidate `c`: they overlap above the merge
threshold and `d`'s confidence is strictly higher. -/
def beatsLater (d c : DetCand) : Bool :=
  decide (iouQ d.bbox c.bbox > dedupIoU) && decide (c.confidence < d.confidence)

/-- Modelled from the spec: the Figure/Table deduplication merge pass of the
core detectors (spec sections 3, 4.4 and 8; the module sources are not in the
checkout).  A candidate is discarded exactly when some other candidate
overlaps it above the IoU merge threshold with higher confidence (ties kept by
the earlier candidate); the first argument accumulates the candidates already
scanned. -/
def dedupAux : List DetCand → List DetCand → List DetCand
  | _, [] => []
  | prev, c :: rest =>
    if prev.any (fun d => beatsEarlier d c) || rest.any (fun d => beatsLater d c) then
      dedupAux (prev ++ [c]) rest
    else
      c :: dedupAux (prev ++ [c]) rest

/-- Modelled from the spec: the deduplication pass on a candidate list. -/
def dedup_pass (l : List DetCand) : List DetCand := dedupAux [] l

lemma dedupAux_sublist (l : List DetCand) : ∀ prev, List.Sublist (dedupAux prev l) l := by
  induction l with
  | nil => intro prev; exact List.Sublist.refl []
  | cons c rest ih =>
    intro prev
    simp only [dedupAux]
    split
    · exact (ih (prev ++ [c])).cons c
    · exact (ih (prev ++ [c])).cons₂ c

lemma dedupAux_no_earlier (l : List DetCand) :
    ∀ prev, ∀ y ∈ dedupAux prev l, ∀ d ∈ prev, beatsEarlier d y = false := by
  induction l with
  | nil => simp [dedupAux]
  | cons c rest ih =>
    intro prev y hy d hd
    simp only [dedupAux] at hy
    split at hy
    · exact ih (prev ++ [c]) y hy d (List.mem_append_left _ hd)
    · rcases List.mem_cons.1 hy with h | h
      · subst h
        rename_i hguard
        simp only [Bool.or_eq_true, List.any_eq_true, not_or, not_exists, not_and]
          at hguard
        exact eq_false_of_ne_true (hguard.1 d hd)
      · exact ih (prev ++ [c]) y h d (List.mem_append_left _ hd)

lemma dedupAux_pairwise_earlier (l : List DetCand) :
    ∀ prev, List.Pairwise (fun x y => beatsEarlier x y = false) (dedupAux prev l) := by
  induction l with
  | nil => intro prev; simp [dedupAux]
  | cons c rest ih =>
    intro prev
    simp only [dedupAux]
    split
    · exact ih (prev ++ [c])
    · refine List.Pairwise.cons ?_ (ih (prev ++ [c]))
      intro y hy
      exact dedupAux_no_earlier rest (prev ++ [c]) y hy c
        (List.mem_append_right _ (List.mem_singleton.2 rfl))

lemma dedupAux_pairwise_later (l : List DetCand) :
    ∀ prev, List.Pairwise (fun x y => beatsLater y x = false) (dedupAux prev l) := by
  induction l with
  | nil => intro prev; simp [dedupAux]
  | cons c rest ih =>
    intro prev
    simp only [dedupAux]
    split
    · exact ih (prev ++ [c])
    · refine List.Pairwise.cons ?_ (ih (prev ++ [c]))
      intro y hy
      rename_i hguard
      simp only [Bool.or_eq_true, List.any_eq_true, not_or, not_exists, not_and] at hguard
      exact eq_false_of_ne_true
        (hguard.2 y ((dedupAux_sublist rest (prev ++ [c])).subset hy))

lemma dedupAux_eq_self (l : List DetCand) :
    ∀ prev, (∀ y ∈ l, ∀ d ∈ prev, beatsEarlier d y = false) →
    List.Pairwise (fun x y => beatsEarlier x y = false ∧ beatsLater y x = false) l →
    dedupAux prev l = l := by
  induction l with
  | nil => intro prev _ _; rfl
  | cons c rest ih =>
    intro prev h1 h2
    rcases List.pairwise_cons.1 h2 with ⟨hc, hrest⟩
    have hga : prev.any (fun d => beatsEarlier d c) = false := by
      refine List.any_eq_false.2 ?_
      intro d hd
      simp [h1 c (List.mem_cons_self c rest) d hd]
    have hgb : rest.any (fun d => beatsLater d c) = false := by
      refine List.any_eq_false.2 ?_
      intro d hd
      simp [(hc d hd).2]
    have hstep : dedupAux prev (c :: rest) = c :: dedupAux (prev ++ [c]) rest := by
      simp [dedupAux, hga, hgb]
    rw [hstep]
    congr 1
    refine ih (prev ++ [c]) ?_ hrest
    intro y hy d hd
    rcases List.mem_append.1 hd with h | h
    · exact h1 y (List.mem_cons_of_mem c hy) d h
    · rw [List.mem_singleton.1 h]
      exact (hc y hy).1

/-- C7: the deduplication merge pass is idempotent — running it a second time
on its own output yields exactly the same candidate list, with no further
merges. -/
theorem C7_dedup_pass_idempotent (l : List DetCand) :
    dedup_pass (dedup_pass l) = dedup_pass l := by
  unfold dedup_pass
  refine dedupAux_eq_self (dedupAux [] l) [] (by simp) ?_
  exact (dedupAux_pairwise_earlier l []).and (dedupAux_pairwise_later l [])

/-- Lower bound on the start of any run still to be emitted, given the current
scan index and the start of the run in progress. -/
def runLower (i : ℕ) : Option ℕ → ℕ
  | none => i
  | some s => s

/-- Modelled from the spec: the maximal-run scan under the gutter flags of
`src.columns` (spec section 4.1; the module source is not in the checkout).
`runsAux bs i cur` scans the flags `bs` starting at pixel column `i`, with
`cur` the start of the run of `true` flags currently open; it returns the
maximal runs as half-open index intervals. -/
def runsAux : List Bool → ℕ → Option ℕ → List (ℕ × ℕ)
  | [], _, none => []
  | [], i, some s => [(s, i)]
  | b :: bs, i, none =>
    if b then runsAux bs (i + 1) (some i) else runsAux bs (i + 1) none
  | b :: bs, i, some s =>
    if b then runsAux bs (i + 1) (some s) else (s, i) :: runsAux bs (i + 1) none

/-- Maximal runs of `true` in a flag list, as half-open pixel intervals. -/
def gutterRuns (flags : List Bool) : List (ℕ × ℕ) := runsAux flags 0 none

/-- Modelled from the spec: collapsing of the page width into column bands
between consecutive gutters (spec section 4.1).  `splitRegion W prev gs` emits
the bands of `[prev, W)` lying between the gutters `gs`; with no gutter it
emits the single full-width remaining band. -/
def splitRegion (W : ℕ) : ℕ → List (ℕ × ℕ) → List (ℕ × ℕ)
  | prev, [] => if prev < W then [(prev, W)] else []
  | prev, (s, e) :: gs => (if prev < s then [(prev, s)] else []) ++ splitRegion W e gs

/-- Modelled from the spec: `detect_columns` of `src.columns` (spec section
4.1; the module source is not in the checkout).  A pixel column is a gutter
candidate when its ink fraction is below the low threshold `tau` and its
vertical whitespace extent exceeds the fraction `gam`; a valid gutter is a
maximal such run at least `minW` wide; columns are the bands between the valid
gutters.  A page with no valid gutter yields the single full-width column. -/
def detect_columns (ink vext : List ℚ) (tau gam : ℚ) (minW : ℕ) : List (ℕ × ℕ) :=
  let flags := (ink.zip vext).map (fun p => decide (p.1 < tau) && decide (gam < p.2))
  let gs := (gutterRuns flags).filter (fun r => decide (minW ≤ r.2 - r.1))
  splitRegion flags.length 0 gs

lemma runsAux_props (bs : List Bool) : ∀ (i : ℕ) (cur : Option ℕ),
    (∀ s, cur = some s → s < i) →
    (∀ r ∈ runsAux bs i cur,
        runLower i cur ≤ r.1 ∧ r.1 < r.2 ∧ r.2 ≤ i + bs.length) ∧
    List.Pairwise (fun a b => a.2 ≤ b.1) (runsAux bs i cur) := by
  induction bs with
  | nil =>
    intro i cur h
    cases cur with
    | none => simp [runsAux]
    | some s =>
      refine ⟨?_, by simp [runsAux]⟩
      intro r hr
      simp only [runsAux, List.mem_singleton] at hr
      subst hr
      exact ⟨le_refl _, h s rfl, by omega⟩
  | cons b bs ih =>
    intro i cur h
    cases cur with
    | none =>
      by_cases hb : b = true
      · have := ih (i + 1) (some i) (by intro s hs; cases hs; omega)
        simp only [runsAux, hb, if_true]
        refine ⟨?_, this.2⟩
        intro r hr
        obtain ⟨hp1, hp2, hp3⟩ := this.1 r hr
        simp only [runLower] at hp1 ⊢
        simp only [List.length_cons]
        omega
      · have := ih (i + 1) none (by intro s hs; cases hs)
        simp only [runsAux, hb, if_false, Bool.false_eq_true]
        refine ⟨?_, this.2⟩
        intro r hr
        obtain ⟨hp1, hp2, hp3⟩ := this.1 r hr
        simp only [runLower] at hp1 ⊢
        simp only [List.length_cons]
        omega
    | some s =>
      have hs := h s rfl
      by_cases hb : b = true
      · have := ih (i + 1) (some s) (by intro u hu; cases hu; omega)
        simp only [runsAux, hb, if_true]
        refine ⟨?_, this.2⟩
        intro r hr
        obtain ⟨hp1, hp2, hp3⟩ := this.1 r hr
        simp only [runLower] at hp1 ⊢
        simp only [List.length_cons]
        omega
      · have := ih (i + 1) none (by intro u hu; cases hu)
        simp only [runsAux, hb, if_false, Bool.false_eq_true]
        constructor
        · intro r hr
          rcases List.mem_cons.1 hr with hr | hr
          · subst hr
            simp only [runLower, List.length_cons]
            omega
          · obtain ⟨hp1, hp2, hp3⟩ := this.1 r hr
            simp only [runLower] at hp1 ⊢
            simp only [List.length_cons]
            omega
        · refine List.Pairwise.cons ?_ this.2
          intro r hr
          obtain ⟨hp1, hp2, hp3⟩ := this.1 r hr
          simp only [runLower] at hp1
          omega

lemma splitRegion_props (W : ℕ) : ∀ (gs : List (ℕ × ℕ)) (prev : ℕ),
    prev ≤ W →
    (∀ g ∈ gs, prev ≤ g.1 ∧ g.1 < g.2 ∧ g.2 ≤ W) →
    List.Pairwise (fun a b => a.2 ≤ b.1) gs →
    (∀ c ∈ splitRegion W prev gs, prev ≤ c.1 ∧ c.1 < c.2 ∧ c.2 ≤ W) ∧
    List.Pairwise (fun a b => a.2 ≤ b.1) (splitRegion W prev gs) ∧
    ((splitRegion W prev gs).map (fun c => c.2 - c.1)).sum + prev ≤ W := by
  intro gs
  induction gs with
  | nil =>
    intro prev hpW _ _
    by_cases hp : prev < W
    · simp only [splitRegion, if_pos hp]
      refine ⟨?_, by simp, by simp; omega⟩
      intro c hc
      simp only [List.mem_singleton] at hc
      subst hc
      exact ⟨le_refl _, hp, le_refl _⟩
    · simp only [splitRegion, if_neg hp]
      exact ⟨by simp, by simp, by simp; omega⟩
  | cons g gs ih =>
    intro prev hpW hg hpair
    obtain ⟨s, e⟩ := g
    have hhead := hg (s, e) (List.mem_cons_self _ _)
    simp only at hhead
    rcases List.pairwise_cons.1 hpair with ⟨hge, hgs⟩
    have hrec := ih e (by omega)
      (by
        intro g' hg'
        have h1 := hg g' (List.mem_cons_of_mem _ hg')
        have h2 := hge g' hg'
        exact ⟨by omega, h1.2.1, h1.2.2⟩)
      hgs
    simp only [splitRegion]
    by_cases hps : prev < s
    · rw [if_pos hps]
      refine ⟨?_, ?_, ?_⟩
      · intro c hc
        rcases List.mem_append.1 hc with hc | hc
        · simp only [List.mem_singleton] at hc
          subst hc
          exact ⟨le_refl _, hps, by omega⟩
        · have := hrec.1 c hc
          exact ⟨by omega, this.2.1, this.2.2⟩
      · rw [List.singleton_append]
        refine List.Pairwise.cons ?_ hrec.2.1
        intro c hc
        have := hrec.1 c hc
        simp only
        omega
      · have := hrec.2.2
        simp only [List.map_append, List.sum_append, List.map_cons, List.map_nil,
          List.sum_cons, List.sum_nil]
        omega
    · rw [if_neg hps]
      simp only [List.nil_append]
      refine ⟨?_, hrec.2.1, by have := hrec.2.2; omega⟩
      intro c hc
      have := hrec.1 c hc
      exact ⟨by omega, this.2.1, this.2.2⟩

/-- C5: the column list returned by the column detector is pairwise
non-overlapping, sorted by strictly increasing `x0`, and the total width
covered by the columns never exceeds the page's pixel width (the length of the
per-pixel-column ink profile). -/
theorem C5_columns_disjoint_sorted_bounded (ink vext : List ℚ) (tau gam : ℚ)
    (minW : ℕ) :
    List.Pairwise (fun a b => a.2 ≤ b.1) (detect_columns ink vext tau gam minW) ∧
    List.Pairwise (fun a b => a.1 < b.1) (detect_columns ink vext tau gam minW) ∧
    ((detect_columns ink vext tau gam minW).map (fun c => c.2 - c.1)).sum ≤
      ink.length := by
  have hW : ((ink.zip vext).map
      (fun p => decide (p.1 < tau) && decide (gam < p.2))).length ≤ ink.length := by
    rw [List.length_map, List.length_zip]
    exact min_le_left _ _
  set flags := (ink.zip vext).map (fun p => decide (p.1 < tau) && decide (gam < p.2))
    with hflags
  have hruns := runsAux_props flags 0 none (by intro s hs; cases hs)
  have hmem : ∀ g ∈ (gutterRuns flags).filter (fun r => decide (minW ≤ r.2 - r.1)),
      0 ≤ g.1 ∧ g.1 < g.2 ∧ g.2 ≤ flags.length := by
    intro g hgm
    obtain ⟨h1, h2, h3⟩ := hruns.1 g (List.mem_of_mem_filter hgm)
    exact ⟨Nat.zero_le _, h2, by omega⟩
  have hpairg : List.Pairwise (fun a b => a.2 ≤ b.1)
      ((gutterRuns flags).filter (fun r => decide (minW ≤ r.2 - r.1))) :=
    hruns.2.filter _
  have hsplit := splitRegion_props flags.length
    ((gutterRuns flags).filter (fun r => decide (minW ≤ r.2 - r.1))) 0
    (Nat.zero_le _) hmem hpairg
  have hcols : detect_columns ink vext tau gam minW =
      splitRegion flags.length 0
        ((gutterRuns flags).filter (fun r => decide (minW ≤ r.2 - r.1))) := rfl
  rw [hcols]
  refine ⟨hsplit.2.1, ?_, ?_⟩
  · refine hsplit.2.1.imp_of_mem ?_
    intro a b ha _ hle
    have := hsplit.1 a ha
    omega
  · have := hsplit.2.2
    omega

/-- Kind of a typed block entering the reading-order assembler. -/
inductive ElemKind where
  | textE
  | figE
  | tabE
  deriving DecidableEq, Repr

/-- A typed block (TextBlock, Figure or Table) for reading-order assembly. -/
structure Elem where
  kind : ElemKind
  bbox : Rect
  deriving DecidableEq, Repr

/-- Horizontal centre of a block's bounding box. -/
def elemCenterX (e : Elem) : ℚ := ((e.bbox.x0 : ℚ) + (e.bbox.x1 : ℚ)) / 2

/-- Whether a block is page-wide: its bbox width exceeds the single-column
threshold (spec section 4.6). -/
def pageWideB (thr : Int) (e : Elem) : Bool := decide (thr < e.bbox.x1 - e.bbox.x0)

/-- Whether a block's `center_x` falls inside a column band `[x0, x1)`. -/
def inColB (c : ℚ × ℚ) (e : Elem) : Bool :=
  decide (c.1 ≤ elemCenterX e) && decide (elemCenterX e < c.2)

/-- Top-edge order on blocks (smaller `y0` first). -/
def byY (a b : Elem) : Prop := a.bbox.y0 ≤ b.bbox.y0

instance : DecidableRel byY := fun _ _ => Int.decLe _ _

instance : IsTotal Elem byY := ⟨fun _ _ => Int.le_total _ _⟩

instance : IsTrans Elem byY := ⟨fun _ _ _ h1 h2 => le_trans h1 h2⟩

/-- Two column bands are disjoint (one lies entirely left of the other). -/
def colDisj (a b : ℚ × ℚ) : Prop := a.2 ≤ b.1 ∨ b.2 ≤ a.1

instance : DecidableRel colDisj := fun _ _ => instDecidableOr

/-- Modelled from the spec: insertion of a page-wide element into the flow at
the position matching its top edge (spec section 4.6: page-wide elements
interrupt column-major flow at their top-edge `y`). -/
def insertAtY (w : Elem) : List Elem → List Elem
  | [] => [w]
  | e :: rest =>
    if w.bbox.y0 < e.bbox.y0 then w :: e :: rest else e :: insertAtY w rest

/-- Modelled from the spec: the reading-order assembler of `src.order` (spec
section 4.6; the module source is not in the checkout).  Columns are traversed
left-to-right; within each column the non-page-wide blocks whose `center_x`
falls inside the column are ordered by top-edge `y`; page-wide blocks are then
inserted at their top-edge position in the global order.  The resulting flat
sequence is the concatenated content of the final Section sequence. -/
def assemble_sections (cols : List (ℚ × ℚ)) (thr : Int) (elems : List Elem) :
    List Elem :=
  let flow := (cols.map (fun c =>
    List.insertionSort byY
      (elems.filter (fun e => (!pageWideB thr e) && inColB c e)))).flatten
  (elems.filter (fun e => pageWideB thr e)).foldl (fun acc w => insertAtY w acc) flow

lemma filter_insertAtY (p : Elem → Bool) (w : Elem) (hw : p w = false) :
    ∀ l, (insertAtY w l).filter p = l.filter p := by
  intro l
  induction l with
  | nil => simp [insertAtY, hw]
  | cons e rest ih =>
    simp only [insertAtY]
    split
    · simp [List.filter_cons, hw]
    · simp only [List.filter_cons]
      cases hpe : p e <;> simp [ih]

lemma filter_foldl_insertAtY (p : Elem → Bool) :
    ∀ ws : List Elem, (∀ w ∈ ws, p w = false) →
    ∀ acc, (ws.foldl (fun acc w => insertAtY w acc) acc).filter p = acc.filter p := by
  intro ws
  induction ws with
  | nil => intro _ acc; rfl
  | cons w ws ih =>
    intro hws acc
    simp only [List.foldl_cons]
    rw [ih (fun x hx => hws x (List.mem_cons_of_mem _ hx)) (insertAtY w acc),
      filter_insertAtY p w (hws w (List.mem_cons_self _ _)) acc]

lemma inColB_false_of_disj (a : Elem) (c c' : ℚ × ℚ) (hd : colDisj c c')
    (h1 : inColB c' a = true) : inColB c a = false := by
  simp only [inColB, Bool.and_eq_true, decide_eq_true_eq] at h1
  simp only [inColB, Bool.and_eq_false_iff, decide_eq_false_iff_not, not_le, not_lt]
  rcases hd with hd | hd
  · right; linarith [h1.1]
  · left; linarith [h1.2]

lemma seg_filter_self (thr : Int) (elems : List Elem) (c : ℚ × ℚ) :
    (List.insertionSort byY
        (elems.filter (fun e => (!pageWideB thr e) && inColB c e))).filter
      (fun e => (!pageWideB thr e) && inColB c e) =
    List.insertionSort byY
      (elems.filter (fun e => (!pageWideB thr e) && inColB c e)) :=
  List.filter_eq_self.2 fun _ ha =>
    (List.mem_filter.1 ((List.mem_insertionSort byY).1 ha)).2

lemma seg_filter_nil (thr : Int) (elems : List Elem) (c c' : ℚ × ℚ)
    (hdisj : colDisj c c') :
    (List.insertionSort byY
        (elems.filter (fun e => (!pageWideB thr e) && inColB c' e))).filter
      (fun e => (!pageWideB thr e) && inColB c e) = [] := by
  refine List.filter_eq_nil_iff.2 ?_
  intro a ha
  have h2 := (List.mem_filter.1 ((List.mem_insertionSort byY).1 ha)).2
  rw [Bool.and_eq_true] at h2
  have h3 := inColB_false_of_disj a c c' hdisj h2.2
  simp [h3]

lemma filter_flatten_nil (thr : Int) (elems : List Elem) (c : ℚ × ℚ) :
    ∀ cs : List (ℚ × ℚ), (∀ c' ∈ cs, colDisj c c') →
    ((cs.map (fun c' => List.insertionSort byY
        (elems.filter (fun e => (!pageWideB thr e) && inColB c' e)))).flatten).filter
      (fun e => (!pageWideB thr e) && inColB c e) = [] := by
  intro cs
  induction cs with
  | nil => intro _; simp
  | cons d ds ih =>
    intro hcs
    simp only [List.map_cons, List.flatten_cons, List.filter_append]
    rw [seg_filter_nil thr elems c d (hcs d (List.mem_cons_self _ _)),
      ih (fun x hx => hcs x (List.mem_cons_of_mem _ hx))]
    rfl

lemma sorted_filter_flow (thr : Int) (elems : List Elem) (c : ℚ × ℚ) :
    ∀ cols : List (ℚ × ℚ), List.Pairwise colDisj cols → c ∈ cols →
    List.Sorted byY (((cols.map (fun c' =>
      List.insertionSort byY
        (elems.filter (fun e => (!pageWideB thr e) && inColB c' e)))).flatten).filter
      (fun e => (!pageWideB thr e) && inColB c e)) := by
  intro cols
  induction cols with
  | nil => intro _ h; exact absurd h (List.not_mem_nil c)
  | cons c1 cols ih =>
    intro hpair hc
    rcases List.pairwise_cons.1 hpair with ⟨hd1, hrest⟩
    simp only [List.map_cons, List.flatten_cons, List.filter_append]
    by_cases hceq : c = c1
    · subst hceq
      rw [seg_filter_self thr elems c, filter_flatten_nil thr elems c cols hd1,
        List.append_nil]
      exact List.sorted_insertionSort byY _
    · have hcmem : c ∈ cols := by
        rcases List.mem_cons.1 hc with h | h
        · exact absurd h hceq
        · exact h
      have hdisj : colDisj c c1 := Or.symm (hd1 c hcmem)
      rw [seg_filter_nil thr elems c c1 hdisj, List.nil_append]
      exact ih hrest hcmem

/-- C8: in the assembled reading order, the non-page-wide blocks assigned to
any single column appear sorted by their top-edge `y` — for two such blocks in
the same column, the one with the smaller top edge precedes the other in the
final Section sequence. -/
theorem C8_reading_order_sorted_within_column (cols : List (ℚ × ℚ)) (thr : Int)
    (elems : List Elem) (c : ℚ × ℚ) (hc : c ∈ cols)
    (hd : List.Pairwise colDisj cols) :
    List.Sorted byY ((assemble_sections cols thr elems).filter
      (fun e => (!pageWideB thr e) && inColB c e)) := by
  unfold assemble_sections
  rw [filter_foldl_insertAtY _ _ ?_ _]
  · exact sorted_filter_flow thr elems c cols hd hc
  · intro w hw
    have hpw := (List.mem_filter.1 hw).2
    simp [hpw]

/-- Concrete columns for the C8 witness. -/
def cols0 : List (ℚ × ℚ) := [((0 : ℚ), (100 : ℚ)), ((100 : ℚ), (200 : ℚ))]

/-- Concrete blocks for the C8 witness: two blocks in the left column listed
out of order, one in the right column, one page-wide block. -/
def elems0 : List Elem :=
  [{ kind := .textE, bbox := ⟨10, 50, 90, 60⟩ },
   { kind := .textE, bbox := ⟨10, 10, 90, 20⟩ },
   { kind := .figE, bbox := ⟨110, 5, 190, 15⟩ },
   { kind := .tabE, bbox := ⟨0, 30, 200, 40⟩ }]

/-- Witness for C8 at a concrete column and block layout. -/
theorem C8_reading_order_sorted_within_column_witness :
    ((0 : ℚ), (100 : ℚ)) ∈ cols0 ∧ List.Pairwise colDisj cols0 ∧
    List.Sorted byY ((assemble_sections cols0 150 elems0).filter
      (fun e => (!pageWideB 150 e) && inColB ((0 : ℚ), (100 : ℚ)) e)) := by
  have h1 : ((0 : ℚ), (100 : ℚ)) ∈ cols0 := List.mem_cons_self _ _
  have h2 : List.Pairwise colDisj cols0 := by
    simp [cols0, List.pairwise_cons, colDisj]
  exact ⟨h1, h2, C8_reading_order_sorted_within_column cols0 150 elems0 _ h1 h2⟩

/-- Kind of a caption-link target (a Figure or a Table candidate). -/
inductive TKind where
  | figK
  | tabK
  deriving DecidableEq, Repr

/-- A caption-link target: its kind and bounding box. -/
structure Target where
  kind : TKind
  bbox : Rect
  deriving DecidableEq, Repr

/-- Position class of a caption relative to its target (spec section 4.5:
above/below). -/
inductive PosCls where
  | above
  | below
  deriving DecidableEq, Repr

/-- A caption link: indices of the target and of the caption text block, and
the caption's position class. -/
structure CapLink where
  target : ℕ
  block : ℕ
  cls : PosCls
  deriving DecidableEq, Repr

/-- Vertical proximity window for caption search, in pixels (spec section
4.5). -/
def vWindow : Int := 50

/-- Horizontal overlap of a caption block with the target's bbox. -/
def horizOverlapB (t b : Rect) : Bool := decide (max t.x0 b.x0 < min t.x1 b.x1)

/-- Geometric test for a position class: the block sits directly below
(resp. above) the target within the vertical window. -/
def clsOkB : PosCls → Rect → Rect → Bool
  | .below, t, b => decide (t.y1 ≤ b.y0) && decide (b.y0 - t.y1 ≤ vWindow)
  | .above, t, b => decide (b.y1 ≤ t.y0) && decide (t.y0 - b.y1 ≤ vWindow)

/-- Caption lexical pattern: a leading token recognizable as Figure/Table
(spec section 4.5), case variants included. -/
def lexMatchB (s : String) : Bool :=
  String.startsWith s ("Figure") || String.startsWith s ("Table") ||
    String.startsWith s ("FIGURE") || String.startsWith s ("TABLE")

/-- Distance from a point coordinate to an interval (zero inside it). -/
def clampDist (lo hi x : ℚ) : ℚ := max 0 (max (lo - x) (x - hi))

/-- Squared Euclidean distance between a caption bbox centroid and the target
bbox edge (spec section 4.5 tie-break). -/
def dist2 (t b : Rect) : ℚ :=
  let cx : ℚ := ((b.x0 : ℚ) + (b.x1 : ℚ)) / 2
  let cy : ℚ := ((b.y0 : ℚ) + (b.y1 : ℚ)) / 2
  let dx := clampDist (t.x0 : ℚ) (t.x1 : ℚ) cx
  let dy := clampDist (t.y0 : ℚ) (t.y1 : ℚ) cy
  dx * dx + dy * dy

/-- Modelled from the spec: the caption candidates for one target and position
class (spec section 4.5; `src.captions` is not in the checkout): not yet
consumed by another link, in the right geometric position, horizontally
overlapping, and lexically matching unless no block on the page matches
lexically. -/
def candBlocks (t : Target) (cls : PosCls) (iblocks : List (ℕ × TextBlockC))
    (used : List ℕ) (anyLex : Bool) : List (ℕ × TextBlockC) :=
  iblocks.filter (fun ib =>
    (!decide (ib.1 ∈ used)) && clsOkB cls t.bbox ib.2.bbox_px &&
      horizOverlapB t.bbox ib.2.bbox_px && (lexMatchB ib.2.text || !anyLex))

/-- Preference order on candidates: lexical matches first, then smaller
distance (spec sections 4.5 and 9). -/
def betterCand (t : Target) (a b : ℕ × TextBlockC) : Bool :=
  (lexMatchB a.2.text && !lexMatchB b.2.text) ||
    ((lexMatchB a.2.text == lexMatchB b.2.text) &&
      decide (dist2 t.bbox a.2.bbox_px < dist2 t.bbox b.2.bbox_px))

/-- One selection step: keep the current best unless the new candidate is
strictly better (the first-seen candidate wins ties). -/
def pickStep (t : Target) (acc : Option (ℕ × TextBlockC)) (ib : ℕ × TextBlockC) :
    Option (ℕ × TextBlockC) :=
  match acc with
  | none => some ib
  | some cur => if betterCand t ib cur then some ib else some cur

/-- Best caption candidate under the preference order (first one wins ties). -/
def pickBest (t : Target) (l : List (ℕ × TextBlockC)) : Option (ℕ × TextBlockC) :=
  l.foldl (pickStep t) none

/-- Modelled from the spec: attempt to link one caption of one position class
to a target, consuming the chosen block. -/
def tryClass (ti : ℕ) (t : Target) (cls : PosCls) (iblocks : List (ℕ × TextBlockC))
    (anyLex : Bool) (used : List ℕ) : List CapLink × List ℕ :=
  match pickBest t (candBlocks t cls iblocks used anyLex) with
  | none => ([], used)
  | some ib => ([{ target := ti, block := ib.1, cls := cls }], used ++ [ib.1])

/-- Modelled from the spec: the links for one target — figures accept one
caption below, tables at most one caption above and one below (spec section
4.5). -/
def linkTarget (ti : ℕ) (t : Target) (iblocks : List (ℕ × TextBlockC))
    (anyLex : Bool) (used : List ℕ) : List CapLink × List ℕ :=
  match t.kind with
  | .figK => tryClass ti t .below iblocks anyLex used
  | .tabK =>
    let r1 := tryClass ti t .above iblocks anyLex used
    let r2 := tryClass ti t .below iblocks anyLex r1.2
    (r1.1 ++ r2.1, r2.2)

/-- Modelled from the spec: the caption-link loop over the targets, threading
the set of consumed caption blocks. -/
def linkLoop (iblocks : List (ℕ × TextBlockC)) (anyLex : Bool) :
    ℕ → List Target → List ℕ → List CapLink
  | _, [], _ => []
  | ti, t :: rest, used =>
    let r := linkTarget ti t iblocks anyLex used
    r.1 ++ linkLoop iblocks anyLex (ti + 1) rest r.2

/-- Modelled from the spec: `link_captions` of `src.captions` (spec section
4.5; the module source is not in the checkout). -/
def link_captions (targets : List Target) (blocks : List TextBlockC) :
    List CapLink :=
  linkLoop blocks.enum (blocks.any (fun b => lexMatchB b.text)) 0 targets []

/-- The partial-injection property of a pair of caption links. -/
def linkOk (a b : CapLink) : Prop :=
  a.block ≠ b.block ∧ ¬(a.target = b.target ∧ a.cls = b.cls)

lemma pickStep_cases (t : Target) (acc : Option (ℕ × TextBlockC))
    (ib : ℕ × TextBlockC) : pickStep t acc ib = acc ∨ pickStep t acc ib = some ib := by
  cases acc with
  | none => exact Or.inr rfl
  | some cur =>
    simp only [pickStep]
    split
    · exact Or.inr rfl
    · exact Or.inl rfl

lemma pickBest_aux (t : Target) (l : List (ℕ × TextBlockC)) :
    ∀ acc ib, l.foldl (pickStep t) acc = some ib → acc = some ib ∨ ib ∈ l := by
  induction l with
  | nil => intro acc ib h; exact Or.inl h
  | cons x xs ih =>
    intro acc ib h
    simp only [List.foldl_cons] at h
    rcases ih _ ib h with h' | h'
    · rcases pickStep_cases t acc x with he | he
      · exact Or.inl (he ▸ h')
      · rw [he] at h'
        cases h'
        exact Or.inr (List.mem_cons_self _ _)
    · exact Or.inr (List.mem_cons_of_mem _ h')

lemma pickBest_mem (t : Target) (l : List (ℕ × TextBlockC)) (ib : ℕ × TextBlockC)
    (h : pickBest t l = some ib) : ib ∈ l := by
  rcases pickBest_aux t l none ib h with h' | h'
  · exact absurd h' (by simp)
  · exact h'

lemma candBlocks_not_used (t : Target) (cls : PosCls)
    (iblocks : List (ℕ × TextBlockC)) (used : List ℕ) (anyLex : Bool)
    (ib : ℕ × TextBlockC) (h : ib ∈ candBlocks t cls iblocks used anyLex) :
    ib.1 ∉ used := by
  have h2 := (List.mem_filter.1 h).2
  simp only [Bool.and_eq_true, Bool.not_eq_true', decide_eq_false_iff_not] at h2
  exact h2.1.1.1

lemma tryClass_facts (ti : ℕ) (t : Target) (cls : PosCls)
    (iblocks : List (ℕ × TextBlockC)) (anyLex : Bool) (used : List ℕ) :
    (∀ lk ∈ (tryClass ti t cls iblocks anyLex used).1,
      lk.target = ti ∧ lk.cls = cls ∧ lk.block ∉ used ∧
        lk.block ∈ (tryClass ti t cls iblocks anyLex used).2) ∧
    (∀ x ∈ used, x ∈ (tryClass ti t cls iblocks anyLex used).2) ∧
    (∀ x ∈ (tryClass ti t cls iblocks anyLex used).2, x ∈ used ∨
      ∃ lk ∈ (tryClass ti t cls iblocks anyLex used).1, lk.block = x) ∧
    List.Pairwise linkOk (tryClass ti t cls iblocks anyLex used).1 := by
  cases hpb : pickBest t (candBlocks t cls iblocks used anyLex) with
  | none =>
    simp only [tryClass, hpb]
    exact ⟨by simp, fun x hx => hx, fun x hx => Or.inl hx, List.Pairwise.nil⟩
  | some ib =>
    have hnu := candBlocks_not_used t cls iblocks used anyLex ib
      (pickBest_mem t _ ib hpb)
    simp only [tryClass, hpb]
    refine ⟨?_, ?_, ?_, ?_⟩
    · intro lk hlk
      simp only [List.mem_singleton] at hlk
      subst hlk
      exact ⟨rfl, rfl, hnu, List.mem_append_right _ (List.mem_singleton.2 rfl)⟩
    · intro x hx
      exact List.mem_append_left _ hx
    · intro x hx
      rcases List.mem_append.1 hx with hx | hx
      · exact Or.inl hx
      · refine Or.inr ⟨{ target := ti, block := ib.1, cls := cls },
          List.mem_singleton.2 rfl, ?_⟩
        simpa using (List.mem_singleton.1 hx).symm
    · exact List.pairwise_singleton _ _

lemma linkTarget_facts (ti : ℕ) (t : Target) (iblocks : List (ℕ × TextBlockC))
    (anyLex : Bool) (used : List ℕ) :
    (∀ lk ∈ (linkTarget ti t iblocks anyLex used).1,
      lk.target = ti ∧ lk.block ∉ used ∧
        lk.block ∈ (linkTarget ti t iblocks anyLex used).2) ∧
    (∀ x ∈ used, x ∈ (linkTarget ti t iblocks anyLex used).2) ∧
    List.Pairwise linkOk (linkTarget ti t iblocks anyLex used).1 := by
  cases hk : t.kind with
  | figK =>
    have h := tryClass_facts ti t .below iblocks anyLex used
    simp only [linkTarget, hk]
    exact ⟨fun lk hlk => ⟨(h.1 lk hlk).1, (h.1 lk hlk).2.2.1, (h.1 lk hlk).2.2.2⟩,
      h.2.1, h.2.2.2⟩
  | tabK =>
    have h1 := tryClass_facts ti t .above iblocks anyLex used
    have h2 := tryClass_facts ti t .below iblocks anyLex
      (tryClass ti t .above iblocks anyLex used).2
    simp only [linkTarget, hk]
    refine ⟨?_, ?_, ?_⟩
    · intro lk hlk
      rcases List.mem_append.1 hlk with hlk | hlk
      · exact ⟨(h1.1 lk hlk).1, (h1.1 lk hlk).2.2.1,
          h2.2.1 lk.block (h1.1 lk hlk).2.2.2⟩
      · have hfirst := h2.1 lk hlk
        refine ⟨hfirst.1, ?_, hfirst.2.2.2⟩
        intro hmem
        exact hfirst.2.2.1 (h1.2.1 lk.block hmem)
    · intro x hx
      exact h2.2.1 x (h1.2.1 x hx)
    · refine List.pairwise_append.2 ⟨h1.2.2.2, h2.2.2.2, ?_⟩
      intro a ha b hb
      constructor
      · intro heq
        exact (h2.1 b hb).2.2.1 (heq ▸ (h1.1 a ha).2.2.2)
      · intro hco
        have hca := (h1.1 a ha).2.1
        have hcb := (h2.1 b hb).2.1
        rw [hca, hcb] at hco
        exact absurd hco.2 (by simp)

lemma linkLoop_facts (iblocks : List (ℕ × TextBlockC)) (anyLex : Bool) :
    ∀ (ts : List Target) (ti : ℕ) (used : List ℕ),
    (∀ lk ∈ linkLoop iblocks anyLex ti ts used, ti ≤ lk.target ∧ lk.block ∉ used) ∧
    List.Pairwise linkOk (linkLoop iblocks anyLex ti ts used) := by
  intro ts
  induction ts with
  | nil => intro ti used; simp [linkLoop]
  | cons t rest ih =>
    intro ti used
    have hT := linkTarget_facts ti t iblocks anyLex used
    have hL := ih (ti + 1) (linkTarget ti t iblocks anyLex used).2
    simp only [linkLoop]
    constructor
    · intro lk hlk
      rcases List.mem_append.1 hlk with hlk | hlk
      · exact ⟨(hT.1 lk hlk).1 ▸ le_refl ti, (hT.1 lk hlk).2.1⟩
      · refine ⟨by have := (hL.1 lk hlk).1; omega, ?_⟩
        intro hmem
        exact (hL.1 lk hlk).2 (hT.2.1 lk.block hmem)
    · refine List.pairwise_append.2 ⟨hT.2.2, hL.2, ?_⟩
      intro a ha b hb
      constructor
      · intro heq
        exact (hL.1 b hb).2 (heq ▸ (hT.1 a ha).2.2)
      · intro hco
        have h1 := (hT.1 a ha).1
        have h2 := (hL.1 b hb).1
        omega

/-- C6: caption linking is a partial injection — in the output of the caption
linker no two links share a caption block (no caption links to more than one
target) and no two links share the same target and position class (each target
accepts at most one caption of each position class). -/
theorem C6_caption_linking_partial_injection (targets : List Target)
    (blocks : List TextBlockC) :
    List.Pairwise
      (fun a b => a.block ≠ b.block ∧ ¬(a.target = b.target ∧ a.cls = b.cls))
      (link_captions targets blocks) :=
  (linkLoop_facts blocks.enum (blocks.any (fun b => lexMatchB b.text)) targets 0 []).2

end Quanta
